import Mathlib

/-!
# Verification of the order-statistics AVL tree (`src/avl.py`, `src/bst.py`)

Shallow embedding of the AVL tree of the repository.  Python `None` children
are the `nil` constructor; the in-place field writes of the source become
reconstruction of the node with the written field changed, threaded through
each function exactly in source order.  Python exceptions become the
`Err` error type of an `Except` result:

* `Err.dupKey`        — `raise ValueError("Duplicating item ...")` in `AVLTree.insert_aux`;
* `Err.keyNotFound`   — `raise ValueError('Deleting non-existent item')` in `AVLTree.delete_aux`;
* `Err.invalidRotation` — `raise ValueError("Current and child should not be None")`
  in `left_rotate` / `right_rotate`;
* `Err.indexError`    — the `assert`-turned-`ValueError` of `range_between`;
* `Err.noneAttr`      — a Python `AttributeError` from accessing an attribute of `None`;
* `Err.outOfFuel`     — a translation artifact: the mutual recursion
  `rebalance` → `left_rotate`/`right_rotate` → `rebalance` of the source has no
  syntactic termination measure, so those functions consume fuel.  A run of the
  source that terminates corresponds to a run of the model with enough fuel, and
  reachability quantifies over the fuel.

Keys, items, heights, sizes and indices are all Python `int`, embedded as `Int`.
-/

namespace MinecraftAVL

/-- An AVL tree node (`node.py`'s `AVLTreeNode`: `key`, `item`, `left`, `right`,
and the cached `height` and `size` fields), with `nil` for Python `None`. -/
inductive AVLNode : Type where
  | nil : AVLNode
  | node (key item : Int) (left right : AVLNode) (height size : Int) : AVLNode
deriving DecidableEq, Repr

/-- Error outcomes; see the module docstring for the Python counterpart of each. -/
inductive Err : Type where
  | dupKey | keyNotFound | invalidRotation | indexError | noneAttr | outOfFuel
deriving DecidableEq, Repr

open AVLNode

/-- `AVLTree.get_height`: `current.height` if `current` is not `None`, else `0`. -/
def get_height : AVLNode → Int
  | nil => 0
  | node _ _ _ _ h _ => h

/-- The cached `size` attribute of a node, `0` for `None` (matching
`self.size(None) = 0` and the way absent children contribute to `size`). -/
def csize : AVLNode → Int
  | nil => 0
  | node _ _ _ _ _ s => s

/-- `AVLTree.get_balance`: `get_height(current.right) - get_height(current.left)`,
`0` if `current` is `None`. -/
def get_balance : AVLNode → Int
  | nil => 0
  | node _ _ l r _ _ => get_height r - get_height l

/-- `BinarySearchTree.is_leaf`: both children absent. -/
def is_leaf : AVLNode → Bool
  | nil => false
  | node _ _ l r _ _ => l = nil ∧ r = nil

/-- The value written into `current.size` by `AVLTree.size(current)` for a
non-`None` `current`, following the source's four branches (leaf; no left
child; no right child; two children), reading the children's cached sizes. -/
def sizeOfChildren (l r : AVLNode) : Int :=
  match l, r with
  | nil, nil => 1
  | nil, node _ _ _ _ _ rs => rs + 1
  | node _ _ _ _ _ ls, nil => ls + 1
  | node _ _ _ _ _ ls, node _ _ _ _ _ rs => ls + rs + 1

/-- `AVLTree.size(current)`: returns `0` and writes nothing when `current` is
`None`; otherwise writes `current.size` from the children's cached sizes and
returns the written value.  The result pair is (updated node, returned int). -/
def sizeM : AVLNode → AVLNode × Int
  | nil => (nil, 0)
  | node k i l r h _ =>
    let v := sizeOfChildren l r
    (node k i l r h v, v)

mutual

/-- `AVLTree.left_rotate`.  Raises `ValueError` when `current` or
`current.right` is `None`; otherwise relinks `child.left = current`,
`current.right = center`, recomputes `current.height` then `child.height`,
then `child.size` then `current.size` (each via `self.size`, in source order:
`child.size` is computed while `current.size` is still the pre-rotation value),
and returns `self.rebalance(child)`. -/
def left_rotate : Nat → AVLNode → Except Err AVLNode
  | 0, _ => .error .outOfFuel
  | _ + 1, nil => .error .invalidRotation
  | _ + 1, node _ _ _ nil _ _ => .error .invalidRotation
  | fuel + 1, node k i l (node ck ci cl cr _ _) h s =>
    -- child = current.right, center = child.left = cl
    -- child.left = current; current.right = center
    -- current.height = max(h(current.left), h(current.right)) + 1
    let nh := max (get_height l) (get_height cl) + 1
    -- child.height = max(h(child.left), h(child.right)) + 1, child.left = current
    let chh := max nh (get_height cr) + 1
    -- child.size = self.size(child): current.size is still the stale `s`
    let chs := sizeOfChildren (node k i l cl nh s) cr
    -- current.size = self.size(current)
    let ns := sizeOfChildren l cl
    rebalance fuel (node ck ci (node k i l cl nh ns) cr chh chs)

/-- `AVLTree.right_rotate`.  Raises `ValueError` when `current` or
`current.left` is `None`; otherwise relinks `child.right = current`,
`current.left = center`, recomputes `child.height` FIRST and then
`current.height` (so `child.height` is computed from `current`'s stale,
pre-rotation height — the source's order, lines 244-245), then `child.size`
then `current.size`, and returns `self.rebalance(child)`. -/
def right_rotate : Nat → AVLNode → Except Err AVLNode
  | 0, _ => .error .outOfFuel
  | _ + 1, nil => .error .invalidRotation
  | _ + 1, node _ _ nil _ _ _ => .error .invalidRotation
  | fuel + 1, node k i (node ck ci cl cr _ _) r h s =>
    -- child = current.left, center = child.right = cr
    -- child.right = current; current.left = center
    -- child.height = max(h(child.left), h(child.right)) + 1 with child.right = current,
    -- whose height field is still the stale `h`
    let chh := max (get_height cl) h + 1
    -- current.height = max(h(current.left), h(current.right)) + 1
    let nh := max (get_height cr) (get_height r) + 1
    -- child.size = self.size(child): current.size is still the stale `s`
    let chs := sizeOfChildren cl (node k i cr r nh s)
    -- current.size = self.size(current)
    let ns := sizeOfChildren cr r
    rebalance fuel (node ck ci cl (node k i cr r nh ns) chh chs)

/-- `AVLTree.rebalance`.  Writes `current.size = self.size(current)`, then
if the balance factor is `≥ 2` possibly right-rotates the right child
(right-left case) and left-rotates `current`; symmetrically for `≤ -2`;
otherwise returns `current`.  `current` is never `None` at any call site
(`current.size = ...` would raise `AttributeError`). -/
def rebalance : Nat → AVLNode → Except Err AVLNode
  | 0, _ => .error .outOfFuel
  | _ + 1, nil => .error .noneAttr
  | fuel + 1, node k i l r h _ =>
    let s1 := sizeOfChildren l r
    if get_balance (node k i l r h s1) ≥ 2 then
      -- child = current.right; `child.left` would raise AttributeError on None
      match r with
      | nil => .error .noneAttr
      | node ck ci cl cr ch cs =>
        if get_height cl > get_height cr then do
          let r2 ← right_rotate fuel (node ck ci cl cr ch cs)
          left_rotate fuel (node k i l r2 h s1)
        else
          left_rotate fuel (node k i l r h s1)
    else if get_balance (node k i l r h s1) ≤ -2 then
      -- child = current.left
      match l with
      | nil => .error .noneAttr
      | node ck ci cl cr ch cs =>
        if get_height cr > get_height cl then do
          let l2 ← left_rotate fuel (node ck ci cl cr ch cs)
          right_rotate fuel (node k i l2 r h s1)
        else
          right_rotate fuel (node k i l r h s1)
    else
      .ok (node k i l r h s1)

end

/-- Lines 104-111 of `AVLTree.insert_aux`, shared by all its non-raising
branches: update `current.height`, write `current.size = self.size(current)`,
and return `self.rebalance(current)`. -/
def ins_tail (fuel : Nat) : AVLNode → Except Err AVLNode
  | nil => .error .noneAttr
  | node k i l r _ s =>
    let nh := max (get_height l) (get_height r) + 1
    rebalance fuel (sizeM (node k i l r nh s)).1

/-- `AVLTree.insert_aux`.  At a `None` position creates the new leaf
(`AVLTreeNode(key, item)`; `node.py` is not under `src/`, and per the spec a
fresh node is a leaf with `height = size = 1` — both fields are overwritten by
lines 105/108 before ever being read); descends right on `key > current.key`,
left on `key < current.key`, raises `ValueError` on an equal key; each
non-raising frame then runs the `ins_tail` updates.  The `self.length += 1`
side effect of the leaf branch is accounted at the tree-level wrapper: it
happens exactly once per successful call, and every raise precedes it or
happens in a frame that performs no mutation. -/
def insert_aux (fuel : Nat) : AVLNode → Int → Int → Except Err AVLNode
  | nil, key, itm =>
    ins_tail fuel (node key itm nil nil 1 1)
  | node ck ci l r hh ss, key, itm =>
    if key > ck then do
      let r' ← insert_aux fuel r key itm
      ins_tail fuel (node ck ci l r' hh ss)
    else if key < ck then do
      let l' ← insert_aux fuel l key itm
      ins_tail fuel (node ck ci l' r hh ss)
    else
      .error .dupKey

/-- `BinarySearchTree.get_minimal`: follow `left` links while possible;
`None` stays `None`. -/
def get_minimal : AVLNode → AVLNode
  | nil => nil
  | node k i nil r h s => node k i nil r h s
  | node _ _ (node a b c d e f) _ _ _ => get_minimal (node a b c d e f)

/-- `BinarySearchTree.get_successor`: `get_minimal(current.right)` when
`current.right` is present, else `None`.  (On `None` input the source would
raise `AttributeError`; no caller passes `None`.) -/
def get_successor : AVLNode → AVLNode
  | nil => nil
  | node _ _ _ r _ _ =>
    match r with
    | nil => nil
    | node a b c d e f => get_minimal (node a b c d e f)

/-- Lines 156-160 of `AVLTree.delete_aux`: update `current.height` and return
`self.rebalance(current)` (no size write at this point — `delete_aux` writes
size only in its two-children branch). -/
def del_tail (fuel : Nat) : AVLNode → Except Err AVLNode
  | nil => .error .noneAttr
  | node k i l r _ s =>
    rebalance fuel (node k i l r (max (get_height l) (get_height r) + 1) s)

/-- `AVLTree.delete_aux`.  Raises `ValueError` at a `None` position; descends
left/right by key comparison; at the matching node: a leaf is removed, a
one-child node is replaced by its child (these three cases return immediately,
skipping this frame's height update and rebalance), and a two-children node
receives the successor's key and item, has the successor's key deleted from its
right subtree, and gets its size written.  The fall-through frames run the
`del_tail` updates.  The `self.length -= 1` side effect happens exactly once
per successful call (in the `≤ 1`-child case finally reached) and is accounted
at the tree-level wrapper. -/
def delete_aux (fuel : Nat) : AVLNode → Int → Except Err AVLNode
  | nil, _ => .error .keyNotFound
  | node ck ci l r hh ss, key =>
    if key < ck then do
      let l' ← delete_aux fuel l key
      del_tail fuel (node ck ci l' r hh ss)
    else if key > ck then do
      let r' ← delete_aux fuel r key
      del_tail fuel (node ck ci l r' hh ss)
    -- we found our key: do actual deletion
    else if is_leaf (node ck ci l r hh ss) then .ok nil
    else if l = nil then .ok r
    else if r = nil then .ok l
    else
      -- succ = self.get_successor(current); succ.key / succ.item would raise
      -- AttributeError were succ None (unreachable: the right child is present)
      match get_successor (node ck ci l r hh ss) with
      | nil => .error .noneAttr
      | node sk si _ _ _ _ => do
        let r' ← delete_aux fuel r sk
        -- current.size = self.size(current)
        del_tail fuel (sizeM (node sk si l r' hh ss)).1

/-- The number of nodes of a (sub)tree — a termination measure and the
specification-side notion of size. -/
def nodeCount : AVLNode → Nat
  | nil => 0
  | node _ _ l r _ _ => nodeCount l + nodeCount r + 1

theorem nodeCount_sizeM (t : AVLNode) : nodeCount (sizeM t).1 = nodeCount t := by
  cases t <;> rfl

/-- `AVLTree.lookup`.  On a `None` node the source evaluates `node.left` and
raises `AttributeError`.  Otherwise it calls `self.size(node.left)` (an
in-place size write on the left child, threaded here; the source evaluates it
up to three times — the recomputation is idempotent, see `sizeM_idem`),
returns the node itself at `index == leftSize`, and otherwise recurses left or
right.  Result: (tree after the size writes, the returned node). -/
def lookupM : AVLNode → Int → Except Err (AVLNode × AVLNode)
  | nil, _ => .error .noneAttr
  | node k i l r h s, index =>
    let p := sizeM l
    if index = p.2 then
      .ok (node k i p.1 r h s, node k i p.1 r h s)
    else if index < p.2 then do
      let q ← lookupM p.1 index
      .ok (node k i q.1 r h s, q.2)
    else do
      let q ← lookupM r (index - p.2 - 1)
      .ok (node k i p.1 q.1 h s, q.2)
termination_by t _ => nodeCount t
decreasing_by
  · simp only [nodeCount_sizeM, nodeCount]; omega
  · simp only [nodeCount]; omega

/-- `AVLTree.range_aux`.  If `current` is `None` or `i > j`, returns the
accumulated list; otherwise looks up the `i`-th node of the tree, appends its
`item`, and recurses with `self.root` and `i + 1`.  Both the `current`
argument and the tree looked into are `self.root`, so the (size-write) mutation
threading uses a single tree argument.  A `None` result from `lookup` cannot
occur (`lookup` returns only actual nodes), and `node.item` on it would raise
`AttributeError`. -/
def range_auxM (root : AVLNode) (i j : Int) (res : List Int) :
    Except Err (AVLNode × List Int) :=
  -- `if current is None or i > j`, with the short-circuit `or` as nested ifs
  if root = nil then .ok (root, res)
  else if hij : i > j then .ok (root, res)
  else
    match lookupM root i with
    | .error e => .error e
    | .ok (root2, nd) =>
      match nd with
      | nil => .error .noneAttr
      | node _ itm _ _ _ _ => range_auxM root2 (i + 1) j (res ++ [itm])
termination_by (j - i + 1).toNat
decreasing_by simp_wf; omega

/-- `AVLTree.range_between`.  Computes `N = self.size(self.root)` (a size
write on the root, threaded), checks the source's precondition
`0 ≤ i ≤ N + 1 ∧ 0 ≤ j ≤ N + 1 ∧ j ≥ i` (note the source's `N + 1` bound),
raising `ValueError` when it fails, and then runs `range_aux`.  The
`isinstance(res, list)` postcondition check of the source is always true and
is omitted. -/
def range_betweenM (t : AVLNode) (i j : Int) : Except Err (AVLNode × List Int) :=
  let p := sizeM t
  if (0 ≤ i ∧ i ≤ p.2 + 1) ∧ (0 ≤ j ∧ j ≤ p.2 + 1) ∧ j ≥ i then
    range_auxM p.1 i j []
  else
    .error .indexError

/-! ## Tree-level wrappers (`BinarySearchTree` / `AVLTree` object state) -/

/-- The tree object: `self.root` and `self.length` (`BinarySearchTree.__init__`). -/
structure AVLTree : Type where
  root : AVLNode
  length : Int
deriving DecidableEq, Repr

/-- `AVLTree()` — the empty tree. -/
def emptyTree : AVLTree := ⟨nil, 0⟩

/-- `BinarySearchTree.is_empty`: `self.root is None`. -/
def tree_is_empty (t : AVLTree) : Bool := t.root = nil

/-- `BinarySearchTree.__len__`: `self.length`. -/
def tree_len (t : AVLTree) : Int := t.length

/-- `__setitem__`: `self.root = self.insert_aux(self.root, key, item)`.  The
`self.length += 1` of `insert_aux` runs exactly once per successful call (at
the single leaf-creation site) and never before a raise, so it is applied here
on success. -/
def setItem (fuel : Nat) (t : AVLTree) (k v : Int) : Except Err AVLTree :=
  (insert_aux fuel t.root k v).map fun rt => ⟨rt, t.length + 1⟩

/-- `__delitem__`: `self.root = self.delete_aux(self.root, key)`.  The
`self.length -= 1` of `delete_aux` runs exactly once per successful call (at
the `≤ 1`-child node finally removed) and never before a raise, so it is
applied here on success. -/
def delItem (fuel : Nat) (t : AVLTree) (k : Int) : Except Err AVLTree :=
  (delete_aux fuel t.root k).map fun rt => ⟨rt, t.length - 1⟩

/-- `__setitem__` observed as Python state: on an exception the tree object is
exactly as before (no raise site in `insert_aux` is preceded by a mutation in
its frame, and enclosing frames mutate only after the recursive call returns). -/
def setItemS (fuel : Nat) (t : AVLTree) (k v : Int) : AVLTree × Option Err :=
  match setItem fuel t k v with
  | .ok t2 => (t2, none)
  | .error e => (t, some e)

/-- `__delitem__` observed as Python state, as in `setItemS`. -/
def delItemS (fuel : Nat) (t : AVLTree) (k : Int) : AVLTree × Option Err :=
  match delItem fuel t k with
  | .ok t2 => (t2, none)
  | .error e => (t, some e)

/-- `AVLTree.lookup(self.root, index)` at tree level, with the threaded
size-write mutations; `self.length` is untouched. -/
def rankLookup (t : AVLTree) (index : Int) : Except Err (AVLTree × AVLNode) :=
  (lookupM t.root index).map fun p => (⟨p.1, t.length⟩, p.2)

/-- `AVLTree.range_between(i, j)` at tree level, with the threaded size-write
mutations; `self.length` is untouched. -/
def rangeBetween (t : AVLTree) (i j : Int) : Except Err (AVLTree × List Int) :=
  (range_betweenM t.root i j).map fun p => (⟨p.1, t.length⟩, p.2)

/-! ## Reachability -/

/-- One public operation of the tree. -/
inductive Op : Type where
  | ins (k v : Int)
  | del (k : Int)
  | rank (index : Int)
  | range (i j : Int)
deriving DecidableEq, Repr

/-- The state transition of one public operation (queries thread their
size-write mutations into the resulting state). -/
def applyOp (fuel : Nat) (t : AVLTree) : Op → Except Err AVLTree
  | .ins k v => setItem fuel t k v
  | .del k => delItem fuel t k
  | .rank index => (rankLookup t index).map (·.1)
  | .range i j => (rangeBetween t i j).map (·.1)

/-- Run a list of operations, all of which must succeed. -/
def runOps (fuel : Nat) : AVLTree → List Op → Except Err AVLTree
  | t, [] => .ok t
  | t, op :: rest =>
    match applyOp fuel t op with
    | .error e => .error e
    | .ok t2 => runOps fuel t2 rest

/-- A tree state is reachable when some sequence of successful public
operations, run with some amount of fuel, produces it from the empty tree. -/
def Reachable (t : AVLTree) : Prop :=
  ∃ fuel ops, runOps fuel emptyTree ops = .ok t

/-! ## Specification-side observations -/

/-- In-order list of (key, item) pairs. -/
def inorder : AVLNode → List (Int × Int)
  | nil => []
  | node k i l r _ _ => inorder l ++ (k, i) :: inorder r

/-- In-order list of keys. -/
def inorderKeys (t : AVLNode) : List Int := (inorder t).map Prod.fst

/-- Every key of the subtree satisfies `p` (decidable helper for `ordered`). -/
def allKeys (p : Int → Bool) : AVLNode → Bool
  | nil => true
  | node k _ l r _ _ => p k && allKeys p l && allKeys p r

/-- BST ordering: left keys below the node's key, right keys above, recursively. -/
def ordered : AVLNode → Bool
  | nil => true
  | node k _ l r _ _ =>
    allKeys (fun x => x < k) l && allKeys (fun x => k < x) r && ordered l && ordered r

/-- Size-cache consistency: every node's cached `size` equals the number of
nodes of its subtree. -/
def szOk : AVLNode → Bool
  | nil => true
  | node _ _ l r _ s => szOk l && szOk r && s = (nodeCount l : Int) + nodeCount r + 1

/-- Height-cache consistency, as claimed by the spec: every node's cached
`height` equals `1 + max` of the children's cached heights (absent child `0`). -/
def heightOk : AVLNode → Bool
  | nil => true
  | node _ _ l r h _ => heightOk l && heightOk r && h = max (get_height l) (get_height r) + 1

/-- The true height of a subtree, independent of the cached fields. -/
def trueHeight : AVLNode → Int
  | nil => 0
  | node _ _ l r _ _ => max (trueHeight l) (trueHeight r) + 1

/-- The AVL balance condition on true heights: at every node the children's
true heights differ by at most 1. -/
def avlBalanced : AVLNode → Bool
  | nil => true
  | node _ _ l r _ _ =>
    avlBalanced l && avlBalanced r && (trueHeight l - trueHeight r ≤ 1 && trueHeight r - trueHeight l ≤ 1)

/-- The key of a node (`node.key`; `0` is never read: used only on nodes). -/
def keyOf : AVLNode → Int
  | nil => 0
  | node k _ _ _ _ _ => k

/-- The item of a node (`node.item`; `0` is never read: used only on nodes). -/
def itemOf : AVLNode → Int
  | nil => 0
  | node _ i _ _ _ _ => i

/-- The right child of a node (termination measure helper for `drain`). -/
def rightOf : AVLNode → AVLNode
  | nil => nil
  | node _ _ _ r _ _ => r

/-- The `BSTInOrderIterator` run to exhaustion.  The iterator state is the
stack and the `current` pointer; each `__next__` pushes the left spine of
`current`, pops a node, yields its key and continues from its right child; it
stops when both are exhausted.  `LinkedStack` is not under `src/`; modelled
from the spec: a plain LIFO stack (push/pop at the list head). -/
def drain : List AVLNode → AVLNode → List Int
  | stack, node k i l r h s => drain (node k i l r h s :: stack) l
  | [], nil => []
  | top :: rest, nil =>
    match top with
    | nil => []   -- unreachable: only nodes are pushed
    | node k _ _ r _ _ => k :: drain rest r
termination_by stack t =>
  2 * nodeCount t + (stack.map fun n => 2 * nodeCount (rightOf n) + 1).sum
decreasing_by
  · simp only [List.map_cons, List.sum_cons, nodeCount, rightOf]; omega
  · simp only [List.map_cons, List.sum_cons, nodeCount, rightOf]; omega

/-- The iterator sequence of a tree (`iter(tree)` drained). -/
def iterKeys (t : AVLTree) : List Int := drain [] t.root

/-! ## Basic lemmas about sizes and in-order lists -/

theorem sizeOfChildren_eq (l r : AVLNode) :
    sizeOfChildren l r = csize l + csize r + 1 := by
  cases l <;> cases r <;> simp [sizeOfChildren, csize] <;> omega

theorem csize_of_szOk {t : AVLNode} (h : szOk t) : csize t = (nodeCount t : Int) := by
  cases t with
  | nil => simp [csize, nodeCount]
  | node k i l r hh s =>
    simp only [szOk, Bool.and_eq_true, decide_eq_true_eq] at h
    simp [csize, nodeCount, h.2]

theorem sizeM_fst_of_szOk {t : AVLNode} (h : szOk t) : (sizeM t).1 = t := by
  cases t with
  | nil => rfl
  | node k i l r hh s =>
    simp only [szOk, Bool.and_eq_true, decide_eq_true_eq] at h
    simp [sizeM, sizeOfChildren_eq, csize_of_szOk h.1.1, csize_of_szOk h.1.2, h.2]

theorem sizeM_idem (t : AVLNode) : sizeM (sizeM t).1 = sizeM t := by
  cases t <;> rfl

theorem inorder_length (t : AVLNode) : (inorder t).length = nodeCount t := by
  induction t with
  | nil => rfl
  | node k i l r hh s ihl ihr => simp [inorder, nodeCount, ihl, ihr]; omega

theorem inorder_eq_nil_iff (t : AVLNode) : inorder t = [] ↔ t = nil := by
  cases t with
  | nil => simp [inorder]
  | node k i l r hh s => simp [inorder]

theorem szOk_node_iff {k i hh s : Int} {l r : AVLNode} :
    szOk (node k i l r hh s) ↔
      (szOk l ∧ szOk r) ∧ s = (nodeCount l : Int) + nodeCount r + 1 := by
  simp [szOk, Bool.and_eq_true, decide_eq_true_eq, and_assoc]

theorem allKeys_iff (p : Int → Bool) (t : AVLNode) :
    allKeys p t = true ↔ ∀ x ∈ inorderKeys t, p x := by
  induction t with
  | nil => simp [allKeys, inorderKeys, inorder]
  | node k i l r hh s ihl ihr =>
    simp only [allKeys, Bool.and_eq_true, inorderKeys, inorder, List.map_append,
      List.map_cons, List.mem_append, List.mem_cons] at *
    constructor
    · rintro ⟨⟨hk, hl⟩, hr⟩ x hx
      rcases hx with hx | hx | hx
      · exact (ihl.mp hl) x hx
      · simpa [hx] using hk
      · exact (ihr.mp hr) x hx
    · intro hx
      refine ⟨⟨hx k (Or.inr (Or.inl rfl)), ihl.mpr fun x h => hx x (Or.inl h)⟩,
        ihr.mpr fun x h => hx x (Or.inr (Or.inr h))⟩

theorem ordered_iff (t : AVLNode) :
    ordered t = true ↔ (inorderKeys t).Pairwise (· < ·) := by
  induction t with
  | nil => simp [ordered, inorderKeys, inorder]
  | node k i l r hh s ihl ihr =>
    simp only [ordered, Bool.and_eq_true, inorderKeys, inorder, List.map_append,
      List.map_cons] at *
    rw [List.pairwise_append]
    constructor
    · rintro ⟨⟨⟨hlk, hrk⟩, hl⟩, hr⟩
      rw [allKeys_iff] at hlk hrk
      simp only [decide_eq_true_eq] at hlk hrk
      refine ⟨ihl.mp hl, List.pairwise_cons.mpr ⟨fun x hx => ?_, ihr.mp hr⟩,
        fun a ha b hb => ?_⟩
      · exact hrk x hx
      · rcases List.mem_cons.mp hb with hb | hb
        · subst hb; exact hlk a ha
        · exact lt_trans (hlk a ha) (hrk b hb)
    · rintro ⟨hl, hr, hcross⟩
      rw [List.pairwise_cons] at hr
      refine ⟨⟨⟨(allKeys_iff _ _).mpr fun x hx => ?_, (allKeys_iff _ _).mpr fun x hx => ?_⟩,
        ihl.mpr hl⟩, ihr.mpr hr.2⟩
      · exact decide_eq_true (hcross x hx k (List.mem_cons_self _ _))
      · exact decide_eq_true (hr.1 x hx)

/-! ## Rotations and rebalance preserve the in-order list and size caches -/

/-- Both children of the root have consistent size caches (the root's own
cached size is about to be recomputed by `rebalance`). -/
def szOkKids : AVLNode → Prop
  | nil => True
  | node _ _ l r _ _ => szOk l ∧ szOk r

/-- The joint induction on fuel: a successful
`left_rotate`/`right_rotate`/`rebalance` preserves the in-order list exactly,
and produces a size-consistent tree whenever the root's children were
size-consistent. -/
theorem rot_reb_spec (fuel : Nat) :
    (∀ t t2, left_rotate fuel t = .ok t2 →
      inorder t2 = inorder t ∧ (szOkKids t → szOk t2)) ∧
    (∀ t t2, right_rotate fuel t = .ok t2 →
      inorder t2 = inorder t ∧ (szOkKids t → szOk t2)) ∧
    (∀ t t2, rebalance fuel t = .ok t2 →
      inorder t2 = inorder t ∧ (szOkKids t → szOk t2)) := by
  induction fuel with
  | zero =>
    refine ⟨?_, ?_, ?_⟩ <;> intro t t2 h <;> simp [left_rotate, right_rotate, rebalance] at h
  | succ fuel ih =>
    obtain ⟨ihL, ihR, ihB⟩ := ih
    have hrotL : ∀ t t2, left_rotate (fuel + 1) t = .ok t2 →
        inorder t2 = inorder t ∧ (szOkKids t → szOk t2) := by
      intro t t2 h
      match t with
      | nil => simp [left_rotate] at h
      | node k i l nil hh s => simp [left_rotate] at h
      | node k i l (node ck ci cl cr ch cs) hh s =>
        simp only [left_rotate] at h
        obtain ⟨hio, hsz⟩ := ihB _ _ h
        constructor
        · rw [hio]; simp [inorder]
        · rintro ⟨hl, hchild⟩
          rw [szOk_node_iff] at hchild
          refine hsz ⟨?_, hchild.1.2⟩
          rw [szOk_node_iff]
          exact ⟨⟨hl, hchild.1.1⟩, by
            rw [sizeOfChildren_eq, csize_of_szOk hl, csize_of_szOk hchild.1.1]⟩
    have hrotR : ∀ t t2, right_rotate (fuel + 1) t = .ok t2 →
        inorder t2 = inorder t ∧ (szOkKids t → szOk t2) := by
      intro t t2 h
      match t with
      | nil => simp [right_rotate] at h
      | node k i nil r hh s => simp [right_rotate] at h
      | node k i (node ck ci cl cr ch cs) r hh s =>
        simp only [right_rotate] at h
        obtain ⟨hio, hsz⟩ := ihB _ _ h
        constructor
        · rw [hio]; simp [inorder]
        · rintro ⟨hchild, hr⟩
          rw [szOk_node_iff] at hchild
          refine hsz ⟨hchild.1.1, ?_⟩
          rw [szOk_node_iff]
          exact ⟨⟨hchild.1.2, hr⟩, by
            rw [sizeOfChildren_eq, csize_of_szOk hchild.1.2, csize_of_szOk hr]⟩
    refine ⟨hrotL, hrotR, ?_⟩
    intro t t2 h
    match t with
    | nil => simp [rebalance] at h
    | node k i l r hh s =>
      simp only [rebalance] at h
      by_cases hb1 : get_balance (node k i l r hh (sizeOfChildren l r)) ≥ 2
      · rw [if_pos hb1] at h
        match r with
        | nil => simp at h
        | node ck ci cl cr ch cs =>
          dsimp only at h
          by_cases hh2 : get_height cl > get_height cr
          · rw [if_pos hh2] at h
            cases hr2 : right_rotate fuel (node ck ci cl cr ch cs) with
            | error e => rw [hr2] at h; simp [Bind.bind, Except.bind] at h
            | ok r2 =>
              rw [hr2] at h
              simp only [Bind.bind, Except.bind] at h
              obtain ⟨hio2, hsz2⟩ := ihR _ _ hr2
              obtain ⟨hio, hsz⟩ := ihL _ _ h
              constructor
              · rw [hio]; simp [inorder, hio2]
              · rintro ⟨hl, hrr⟩
                rw [szOk_node_iff] at hrr
                exact hsz ⟨hl, hsz2 ⟨hrr.1.1, hrr.1.2⟩⟩
          · rw [if_neg hh2] at h
            obtain ⟨hio, hsz⟩ := ihL _ _ h
            constructor
            · rw [hio]; simp [inorder]
            · rintro ⟨hl, hrr⟩
              rw [szOk_node_iff] at hrr
              exact hsz ⟨hl, szOk_node_iff.mpr ⟨⟨hrr.1.1, hrr.1.2⟩, hrr.2⟩⟩
      · rw [if_neg hb1] at h
        by_cases hb2 : get_balance (node k i l r hh (sizeOfChildren l r)) ≤ -2
        · rw [if_pos hb2] at h
          match l with
          | nil => simp at h
          | node ck ci cl cr ch cs =>
            dsimp only at h
            by_cases hh2 : get_height cr > get_height cl
            · rw [if_pos hh2] at h
              cases hl2 : left_rotate fuel (node ck ci cl cr ch cs) with
              | error e => rw [hl2] at h; simp [Bind.bind, Except.bind] at h
              | ok l2 =>
                rw [hl2] at h
                simp only [Bind.bind, Except.bind] at h
                obtain ⟨hio2, hsz2⟩ := ihL _ _ hl2
                obtain ⟨hio, hsz⟩ := ihR _ _ h
                constructor
                · rw [hio]; simp [inorder, hio2]
                · rintro ⟨hll, hr⟩
                  rw [szOk_node_iff] at hll
                  exact hsz ⟨hsz2 ⟨hll.1.1, hll.1.2⟩, hr⟩
            · rw [if_neg hh2] at h
              obtain ⟨hio, hsz⟩ := ihR _ _ h
              constructor
              · rw [hio]; simp [inorder]
              · rintro ⟨hll, hr⟩
                rw [szOk_node_iff] at hll
                exact hsz ⟨szOk_node_iff.mpr ⟨⟨hll.1.1, hll.1.2⟩, hll.2⟩, hr⟩
        · rw [if_neg hb2] at h
          cases h
          constructor
          · rfl
          · rintro ⟨hl, hr⟩
            exact szOk_node_iff.mpr ⟨⟨hl, hr⟩, by
              rw [sizeOfChildren_eq, csize_of_szOk hl, csize_of_szOk hr]⟩

theorem left_rotate_spec {fuel : Nat} {t t2 : AVLNode}
    (h : left_rotate fuel t = .ok t2) :
    inorder t2 = inorder t ∧ (szOkKids t → szOk t2) :=
  (rot_reb_spec fuel).1 t t2 h

theorem right_rotate_spec {fuel : Nat} {t t2 : AVLNode}
    (h : right_rotate fuel t = .ok t2) :
    inorder t2 = inorder t ∧ (szOkKids t → szOk t2) :=
  (rot_reb_spec fuel).2.1 t t2 h

theorem rebalance_spec {fuel : Nat} {t t2 : AVLNode}
    (h : rebalance fuel t = .ok t2) :
    inorder t2 = inorder t ∧ (szOkKids t → szOk t2) :=
  (rot_reb_spec fuel).2.2 t t2 h

/-! ## Characterization of `insert_aux` -/

/-- Insertion of a pair into a key-sorted association list, before the first
strictly larger key. -/
def insLst (k v : Int) : List (Int × Int) → List (Int × Int)
  | [] => [(k, v)]
  | (a, b) :: rest => if k < a then (k, v) :: (a, b) :: rest else (a, b) :: insLst k v rest

theorem insLst_length (k v : Int) (L : List (Int × Int)) :
    (insLst k v L).length = L.length + 1 := by
  induction L with
  | nil => rfl
  | cons p rest ih =>
    obtain ⟨a, b⟩ := p
    by_cases hk : k < a <;> simp [insLst, hk, ih]

theorem mem_insLst {p : Int × Int} {k v : Int} {L : List (Int × Int)}
    (h : p ∈ insLst k v L) : p ∈ L ∨ p = (k, v) := by
  induction L with
  | nil => simp [insLst] at h; simp [h]
  | cons q rest ih =>
    obtain ⟨a, b⟩ := q
    by_cases hk : k < a
    · simp [insLst, hk] at h
      rcases h with h | h | h <;> simp [h]
    · simp [insLst, hk] at h
      rcases h with h | h
      · simp [h]
      · rcases ih h with h2 | h2 <;> simp [h2]

theorem insLst_subset {p : Int × Int} {k v : Int} {L : List (Int × Int)}
    (h : p ∈ L) : p ∈ insLst k v L := by
  induction L with
  | nil => simp at h
  | cons q rest ih =>
    obtain ⟨a, b⟩ := q
    rcases List.mem_cons.mp h with h | h
    · by_cases hk : k < a <;> simp [insLst, hk, h]
    · by_cases hk : k < a <;> simp [insLst, hk, ih h, Or.inr (Or.inr h)]

theorem self_mem_insLst (k v : Int) (L : List (Int × Int)) :
    (k, v) ∈ insLst k v L := by
  induction L with
  | nil => simp [insLst]
  | cons q rest ih =>
    obtain ⟨a, b⟩ := q
    by_cases hk : k < a <;> simp [insLst, hk, ih]

theorem insLst_append_lt {k a : Int} (v b : Int) (L1 L2 : List (Int × Int))
    (hka : k < a) :
    insLst k v (L1 ++ (a, b) :: L2) = insLst k v L1 ++ (a, b) :: L2 := by
  induction L1 with
  | nil => simp [insLst, hka]
  | cons p rest ih =>
    obtain ⟨c, d⟩ := p
    by_cases hk : k < c <;> simp [insLst, hk, ih]

theorem insLst_append_gt {k a : Int} (v b : Int) (L1 L2 : List (Int × Int))
    (hak : a < k) (h1 : ∀ p ∈ L1, p.1 < k) :
    insLst k v (L1 ++ (a, b) :: L2) = L1 ++ (a, b) :: insLst k v L2 := by
  induction L1 with
  | nil => simp [insLst, not_lt.mpr (le_of_lt hak)]
  | cons p rest ih =>
    obtain ⟨c, d⟩ := p
    have hc : c < k := h1 (c, d) (List.mem_cons_self _ _)
    simp [insLst, not_lt.mpr (le_of_lt hc)]
    exact ih fun p hp => h1 p (List.mem_cons_of_mem _ hp)

theorem pairwise_insLst {k v : Int} {L : List (Int × Int)}
    (hL : L.Pairwise (fun p q => p.1 < q.1)) (hk : ∀ p ∈ L, p.1 ≠ k) :
    (insLst k v L).Pairwise (fun p q => p.1 < q.1) := by
  induction L with
  | nil => simp [insLst]
  | cons p rest ih =>
    obtain ⟨a, b⟩ := p
    rw [List.pairwise_cons] at hL
    by_cases hlt : k < a
    · rw [insLst, if_pos hlt, List.pairwise_cons]
      refine ⟨fun q hq => ?_, List.pairwise_cons.mpr hL⟩
      rcases List.mem_cons.mp hq with hq | hq
      · simp [hq, hlt]
      · exact lt_trans hlt (hL.1 q hq)
    · have hak : a < k := by
        have hne := hk (a, b) (List.mem_cons_self _ _)
        simp only [ne_eq] at hne
        rcases lt_or_eq_of_le (not_lt.mp hlt) with h | h
        · exact h
        · exact absurd h hne
      rw [insLst, if_neg hlt, List.pairwise_cons]
      refine ⟨fun q hq => ?_, ih hL.2 fun p hp => hk p (List.mem_cons_of_mem _ hp)⟩
      rcases mem_insLst hq with hq | hq
      · exact hL.1 q hq
      · simp [hq, hak]

/-- `ins_tail` (the shared height/size/rebalance suffix of `insert_aux`)
preserves the frame's in-order list and size consistency. -/
theorem ins_tail_spec {fuel : Nat} {k i hh ss : Int} {l r : AVLNode} {t2 : AVLNode}
    (h : ins_tail fuel (node k i l r hh ss) = .ok t2) :
    inorder t2 = inorder l ++ (k, i) :: inorder r ∧ (szOk l → szOk r → szOk t2) := by
  simp only [ins_tail, sizeM] at h
  obtain ⟨hio, hsz⟩ := rebalance_spec h
  exact ⟨by rw [hio]; rfl, fun hl hr => hsz ⟨hl, hr⟩⟩

/-- Inserting a key already present fails with the duplicate-key
`ValueError`, for any fuel (the raise happens during descent, before any
rebalancing runs). -/
theorem insert_aux_dup {t : AVLNode} (fuel : Nat) (k v : Int)
    (hord : ordered t) (hmem : k ∈ inorderKeys t) :
    insert_aux fuel t k v = .error .dupKey := by
  induction t with
  | nil => simp [inorderKeys, inorder] at hmem
  | node ck ci l r hh ss ihl ihr =>
    simp only [ordered, Bool.and_eq_true] at hord
    simp only [inorderKeys, inorder, List.map_append, List.map_cons,
      List.mem_append, List.mem_cons] at hmem
    by_cases hgt : k > ck
    · have hkr : k ∈ inorderKeys r := by
        rcases hmem with hm | hm | hm
        · exact absurd (of_decide_eq_true ((allKeys_iff _ _).mp hord.1.1.1 k hm))
            (by omega)
        · omega
        · exact hm
      simp only [insert_aux, if_pos hgt, ihr hord.2 hkr, Bind.bind, Except.bind]
    · by_cases hlt : k < ck
      · have hkl : k ∈ inorderKeys l := by
          rcases hmem with hm | hm | hm
          · exact hm
          · omega
          · exact absurd (of_decide_eq_true ((allKeys_iff _ _).mp hord.1.1.2 k hm))
              (by omega)
        simp only [insert_aux, if_neg hgt, if_pos hlt, ihl hord.1.2 hkl,
          Bind.bind, Except.bind]
      · simp only [insert_aux, if_neg hgt, if_neg hlt]

/-- A successful `insert_aux` produces exactly the sorted insertion of the new
pair into the in-order list, and preserves size-cache consistency. -/
theorem insert_aux_spec {t t2 : AVLNode} {fuel : Nat} {k v : Int}
    (hord : ordered t) (h : insert_aux fuel t k v = .ok t2) :
    inorder t2 = insLst k v (inorder t) ∧ (szOk t → szOk t2) := by
  induction t generalizing t2 with
  | nil =>
    simp only [insert_aux] at h
    obtain ⟨hio, hsz⟩ := ins_tail_spec h
    exact ⟨by simp [hio, inorder, insLst], fun _ => hsz rfl rfl⟩
  | node ck ci l r hh ss ihl ihr =>
    simp only [ordered, Bool.and_eq_true] at hord
    by_cases hgt : k > ck
    · simp only [insert_aux, if_pos hgt] at h
      cases hr2 : insert_aux fuel r k v with
      | error e => rw [hr2] at h; simp [Bind.bind, Except.bind] at h
      | ok r2 =>
        rw [hr2] at h
        simp only [Bind.bind, Except.bind] at h
        obtain ⟨hio2, hsz2⟩ := ihr hord.2 hr2
        obtain ⟨hio, hsz⟩ := ins_tail_spec h
        constructor
        · rw [hio, hio2, inorder, insLst_append_gt v ci _ _ hgt]
          intro p hp
          have := of_decide_eq_true ((allKeys_iff _ _).mp hord.1.1.1 p.1
            (List.mem_map_of_mem Prod.fst hp))
          omega
        · intro hsztot
          rw [szOk_node_iff] at hsztot
          exact hsz hsztot.1.1 (hsz2 hsztot.1.2)
    · by_cases hlt : k < ck
      · simp only [insert_aux, if_neg hgt, if_pos hlt] at h
        cases hl2 : insert_aux fuel l k v with
        | error e => rw [hl2] at h; simp [Bind.bind, Except.bind] at h
        | ok l2 =>
          rw [hl2] at h
          simp only [Bind.bind, Except.bind] at h
          obtain ⟨hio2, hsz2⟩ := ihl hord.1.2 hl2
          obtain ⟨hio, hsz⟩ := ins_tail_spec h
          constructor
          · rw [hio, hio2, inorder, insLst_append_lt v ci _ _ hlt]
          · intro hsztot
            rw [szOk_node_iff] at hsztot
            exact hsz (hsz2 hsztot.1.1) hsztot.1.2
      · simp only [insert_aux, if_neg hgt, if_neg hlt] at h
        cases h

/-! ## Characterization of `delete_aux` -/

/-- Removal of the first pair with the given key from an association list. -/
def delLst (k : Int) : List (Int × Int) → List (Int × Int)
  | [] => []
  | (a, b) :: rest => if a = k then rest else (a, b) :: delLst k rest

theorem delLst_append_of_mem {k : Int} {L1 : List (Int × Int)} (M : List (Int × Int))
    (h : k ∈ L1.map Prod.fst) : delLst k (L1 ++ M) = delLst k L1 ++ M := by
  induction L1 with
  | nil => simp at h
  | cons p rest ih =>
    obtain ⟨a, b⟩ := p
    by_cases hak : a = k
    · simp [delLst, hak]
    · have : k ∈ rest.map Prod.fst := by
        simp only [List.map_cons, List.mem_cons] at h
        rcases h with h | h
        · exact absurd h.symm hak
        · exact h
      simp [delLst, hak, ih this]

theorem delLst_append_of_not_mem {k : Int} {L1 : List (Int × Int)} (M : List (Int × Int))
    (h : ∀ p ∈ L1, p.1 ≠ k) : delLst k (L1 ++ M) = L1 ++ delLst k M := by
  induction L1 with
  | nil => simp
  | cons p rest ih =>
    obtain ⟨a, b⟩ := p
    have hak : a ≠ k := h (a, b) (List.mem_cons_self _ _)
    simp [delLst, hak, ih fun p hp => h p (List.mem_cons_of_mem _ hp)]

theorem delLst_length_of_mem {k : Int} {L : List (Int × Int)}
    (h : k ∈ L.map Prod.fst) : (delLst k L).length + 1 = L.length := by
  induction L with
  | nil => simp at h
  | cons p rest ih =>
    obtain ⟨a, b⟩ := p
    by_cases hak : a = k
    · simp [delLst, hak]
    · have : k ∈ rest.map Prod.fst := by
        simp only [List.map_cons, List.mem_cons] at h
        rcases h with h | h
        · exact absurd h.symm hak
        · exact h
      simp [delLst, hak, ih this]

theorem delLst_sublist (k : Int) (L : List (Int × Int)) : (delLst k L).Sublist L := by
  induction L with
  | nil => simp [delLst]
  | cons p rest ih =>
    obtain ⟨a, b⟩ := p
    by_cases hak : a = k
    · simp [delLst, hak]
    · simp only [delLst, if_neg hak]
      exact ih.cons₂ _

theorem mem_keys_delLst {x k : Int} {L : List (Int × Int)}
    (hnd : (L.map Prod.fst).Nodup) :
    (x ∈ (delLst k L).map Prod.fst ↔ x ∈ L.map Prod.fst ∧ x ≠ k) := by
  induction L with
  | nil => simp [delLst]
  | cons p rest ih =>
    obtain ⟨a, b⟩ := p
    simp only [List.map_cons, List.nodup_cons] at hnd
    by_cases hak : a = k
    · subst hak
      simp only [delLst, if_pos rfl, List.map_cons, List.mem_cons]
      constructor
      · intro hx
        refine ⟨Or.inr hx, fun he => hnd.1 (he ▸ hx)⟩
      · rintro ⟨hx | hx, hxa⟩
        · exact absurd hx hxa
        · exact hx
    · simp only [delLst, if_neg hak, List.map_cons, List.mem_cons, ih hnd.2]
      constructor
      · rintro (hx | ⟨hx, hxk⟩)
        · exact ⟨Or.inl hx, fun he => hak (hx ▸ he)⟩
        · exact ⟨Or.inr hx, hxk⟩
      · rintro ⟨hx | hx, hxk⟩
        · exact Or.inl hx
        · exact Or.inr ⟨hx, hxk⟩

/-- `get_minimal` of a non-empty subtree is its leftmost node, whose pair
heads the in-order list. -/
theorem get_minimal_spec {t : AVLNode} (h : t ≠ nil) :
    get_minimal t ≠ nil ∧
      ∃ tl, inorder t = (keyOf (get_minimal t), itemOf (get_minimal t)) :: tl := by
  induction t with
  | nil => exact absurd rfl h
  | node k i l r hh ss ihl ihr =>
    cases l with
    | nil =>
      refine ⟨by simp [get_minimal], inorder r, ?_⟩
      simp [get_minimal, inorder, keyOf, itemOf]
    | node a b c d e f =>
      obtain ⟨hne, tl, htl⟩ := ihl (by simp)
      refine ⟨by simpa [get_minimal] using hne, tl ++ (k, i) :: inorder r, ?_⟩
      have hstep : inorder (node k i (node a b c d e f) r hh ss)
          = inorder (node a b c d e f) ++ (k, i) :: inorder r := rfl
      rw [hstep, htl, show get_minimal (node k i (node a b c d e f) r hh ss)
          = get_minimal (node a b c d e f) from rfl]
      simp

/-- `del_tail` (the height/rebalance suffix of `delete_aux`) preserves the
frame's in-order list and size consistency. -/
theorem del_tail_spec {fuel : Nat} {k i hh ss : Int} {l r : AVLNode} {t2 : AVLNode}
    (h : del_tail fuel (node k i l r hh ss) = .ok t2) :
    inorder t2 = inorder l ++ (k, i) :: inorder r ∧ (szOk l → szOk r → szOk t2) := by
  simp only [del_tail] at h
  obtain ⟨hio, hsz⟩ := rebalance_spec h
  exact ⟨by rw [hio]; rfl, fun hl hr => hsz ⟨hl, hr⟩⟩

/-- Deleting an absent key fails with the missing-key `ValueError`, for any
fuel (the raise happens at the bottom of the descent, before any rebalancing
runs). -/
theorem delete_aux_notfound {t : AVLNode} (fuel : Nat) (k : Int)
    (hord : ordered t) (hmem : k ∉ inorderKeys t) :
    delete_aux fuel t k = .error .keyNotFound := by
  induction t with
  | nil => rfl
  | node ck ci l r hh ss ihl ihr =>
    simp only [ordered, Bool.and_eq_true] at hord
    simp only [inorderKeys, inorder, List.map_append, List.map_cons,
      List.mem_append, List.mem_cons, not_or] at hmem
    by_cases hlt : k < ck
    · simp only [delete_aux, if_pos hlt, ihl hord.1.2 hmem.1, Bind.bind, Except.bind]
    · have hgt : k > ck := by
        rcases lt_trichotomy k ck with h | h | h
        · exact absurd h hlt
        · exact absurd h hmem.2.1
        · exact h
      simp only [delete_aux, if_neg hlt, if_pos hgt, ihr hord.2 hmem.2.2,
        Bind.bind, Except.bind]

/-- A successful `delete_aux` removes exactly the first (hence, with unique
keys, the only) pair carrying the key, and preserves size-cache consistency. -/
theorem delete_aux_spec {t : AVLNode} {fuel : Nat} :
    ∀ {k : Int} {t2 : AVLNode}, ordered t → delete_aux fuel t k = .ok t2 →
      inorder t2 = delLst k (inorder t) ∧ k ∈ inorderKeys t ∧ (szOk t → szOk t2) := by
  induction t with
  | nil =>
    intro k t2 hord h
    simp [delete_aux] at h
  | node ck ci l r hh ss ihl ihr =>
    intro k t2 hord h
    simp only [ordered, Bool.and_eq_true] at hord
    have hkeysl : ∀ p ∈ inorder l, p.1 < ck := fun p hp =>
      of_decide_eq_true ((allKeys_iff _ _).mp hord.1.1.1 p.1
        (List.mem_map_of_mem Prod.fst hp))
    by_cases hlt : k < ck
    · simp only [delete_aux, if_pos hlt] at h
      cases hl2 : delete_aux fuel l k with
      | error e => rw [hl2] at h; simp [Bind.bind, Except.bind] at h
      | ok l2 =>
        rw [hl2] at h
        simp only [Bind.bind, Except.bind] at h
        obtain ⟨hio2, hmem2, hsz2⟩ := ihl hord.1.2 hl2
        obtain ⟨hio, hsz⟩ := del_tail_spec h
        refine ⟨?_, ?_, ?_⟩
        · rw [hio, hio2, inorder, delLst_append_of_mem _ hmem2]
        · simp only [inorderKeys, inorder, List.map_append, List.mem_append]
          exact Or.inl hmem2
        · intro hsztot
          rw [szOk_node_iff] at hsztot
          exact hsz (hsz2 hsztot.1.1) hsztot.1.2
    · by_cases hgt : k > ck
      · simp only [delete_aux, if_neg hlt, if_pos hgt] at h
        cases hr2 : delete_aux fuel r k with
        | error e => rw [hr2] at h; simp [Bind.bind, Except.bind] at h
        | ok r2 =>
          rw [hr2] at h
          simp only [Bind.bind, Except.bind] at h
          obtain ⟨hio2, hmem2, hsz2⟩ := ihr hord.2 hr2
          obtain ⟨hio, hsz⟩ := del_tail_spec h
          refine ⟨?_, ?_, ?_⟩
          · rw [hio, hio2, inorder,
              delLst_append_of_not_mem _ fun p hp => by have := hkeysl p hp; omega]
            simp only [delLst, if_neg (by omega : ¬ ck = k)]
          · simp only [inorderKeys, inorder, List.map_append, List.map_cons,
              List.mem_append, List.mem_cons]
            exact Or.inr (Or.inr hmem2)
          · intro hsztot
            rw [szOk_node_iff] at hsztot
            exact hsz hsztot.1.1 (hsz2 hsztot.1.2)
      · have hkck : k = ck := by omega
        subst hkck
        simp only [delete_aux, if_neg hlt, if_neg hgt] at h
        cases l with
        | nil =>
          cases r with
          | nil =>
            simp [is_leaf] at h
            subst h
            refine ⟨by simp [inorder, delLst], by simp [inorderKeys, inorder],
              fun _ => rfl⟩
          | node ra rb rc rd re rf =>
            simp [is_leaf] at h
            subst h
            refine ⟨by simp [inorder, delLst], by simp [inorderKeys, inorder], ?_⟩
            intro hsztot
            exact (szOk_node_iff.mp hsztot).1.2
        | node la lb lc ld le lf =>
          cases r with
          | nil =>
            simp [is_leaf] at h
            subst h
            refine ⟨?_, by simp [inorderKeys, inorder],
              fun hsztot => (szOk_node_iff.mp hsztot).1.1⟩
            conv_rhs => rw [inorder]
            rw [delLst_append_of_not_mem _ fun p hp => by have := hkeysl p hp; omega]
            simp [inorder, delLst]
          | node ra rb rc rd re rf =>
            simp only [is_leaf] at h
            rw [if_neg (by simp), if_neg (by simp), if_neg (by simp)] at h
            have hrne : (node ra rb rc rd re rf) ≠ nil := by simp
            obtain ⟨hmne, tl, htl⟩ := get_minimal_spec hrne
            simp only [get_successor] at h
            cases hgm : get_minimal (node ra rb rc rd re rf) with
            | nil => exact absurd hgm hmne
            | node mk mi m1 m2 m3 m4 =>
              rw [hgm] at h
              dsimp only at h
              cases hr2 : delete_aux fuel (node ra rb rc rd re rf) mk with
              | error e => rw [hr2] at h; simp [Bind.bind, Except.bind] at h
              | ok r2 =>
                rw [hr2] at h
                simp only [Bind.bind, Except.bind, sizeM] at h
                obtain ⟨hio2, hmem2, hsz2⟩ := ihr hord.2 hr2
                obtain ⟨hio, hsz⟩ := del_tail_spec h
                rw [hgm] at htl
                simp only [keyOf, itemOf] at htl
                refine ⟨?_, by simp [inorderKeys, inorder], ?_⟩
                · rw [hio, hio2, htl]
                  conv_rhs => rw [inorder]
                  rw [delLst_append_of_not_mem _ fun p hp => by have := hkeysl p hp; omega]
                  simp [delLst]
                  rw [htl]
                · intro hsztot
                  rw [szOk_node_iff] at hsztot
                  exact hsz hsztot.1.1 (hsz2 hsztot.1.2)

/-! ## The reachable-state invariant -/

/-- The data-structure invariant maintained by every public operation:
BST ordering, size-cache consistency, and agreement of the stored `length`
with the actual node count. -/
def Inv (t : AVLTree) : Prop :=
  ordered t.root ∧ szOk t.root ∧ t.length = (nodeCount t.root : Int)

theorem inv_empty : Inv emptyTree :=
  ⟨rfl, rfl, rfl⟩

theorem setItem_spec {fuel : Nat} {t t2 : AVLTree} {k v : Int}
    (hinv : Inv t) (h : setItem fuel t k v = .ok t2) :
    Inv t2 ∧ inorder t2.root = insLst k v (inorder t.root) ∧
      k ∉ inorderKeys t.root ∧ t2.length = t.length + 1 := by
  obtain ⟨hord, hsz, hlen⟩ := hinv
  simp only [setItem, Except.map] at h
  cases hr : insert_aux fuel t.root k v with
  | error e => rw [hr] at h; cases h
  | ok rt =>
    rw [hr] at h
    cases h
    obtain ⟨hio, hszr⟩ := insert_aux_spec hord hr
    have hnotmem : k ∉ inorderKeys t.root := by
      intro hmem
      rw [insert_aux_dup fuel k v hord hmem] at hr
      cases hr
    have hlen2 : (inorder rt).length = (inorder t.root).length + 1 := by
      rw [hio, insLst_length]
    refine ⟨⟨?_, hszr hsz, ?_⟩, hio, hnotmem, rfl⟩
    · rw [ordered_iff]
      have hpw := (ordered_iff t.root).mp hord
      simp only [inorderKeys] at hpw ⊢
      rw [hio]
      rw [List.pairwise_map] at hpw ⊢
      refine pairwise_insLst hpw fun p hp hpk => ?_
      exact hnotmem (by
        simp only [inorderKeys, List.mem_map]
        exact ⟨p, hp, hpk⟩)
    · have : nodeCount rt = nodeCount t.root + 1 := by
        rw [← inorder_length, ← inorder_length, hlen2]
      simp only [this, hlen]
      push_cast
      ring

theorem delItem_spec {fuel : Nat} {t t2 : AVLTree} {k : Int}
    (hinv : Inv t) (h : delItem fuel t k = .ok t2) :
    Inv t2 ∧ inorder t2.root = delLst k (inorder t.root) ∧
      k ∈ inorderKeys t.root ∧ t2.length = t.length - 1 := by
  obtain ⟨hord, hsz, hlen⟩ := hinv
  simp only [delItem, Except.map] at h
  cases hr : delete_aux fuel t.root k with
  | error e => rw [hr] at h; cases h
  | ok rt =>
    rw [hr] at h
    cases h
    obtain ⟨hio, hmem, hszr⟩ := delete_aux_spec hord hr
    have hlen2 : (inorder rt).length + 1 = (inorder t.root).length := by
      rw [hio]
      exact delLst_length_of_mem (by simpa [inorderKeys] using hmem)
    refine ⟨⟨?_, hszr hsz, ?_⟩, hio, hmem, rfl⟩
    · rw [ordered_iff]
      have hpw := (ordered_iff t.root).mp hord
      simp only [inorderKeys] at hpw ⊢
      rw [hio]
      rw [List.pairwise_map] at hpw ⊢
      exact hpw.sublist (delLst_sublist k (inorder t.root))
    · have : nodeCount rt + 1 = nodeCount t.root := by
        rw [← inorder_length, ← inorder_length, hlen2]
      simp only [hlen]
      omega

/-- On a size-consistent subtree, `self.size` writes back the value already
cached and returns the node count. -/
theorem sizeM_eq_of_szOk {t : AVLNode} (h : szOk t) :
    sizeM t = (t, (nodeCount t : Int)) := by
  have h1 := sizeM_fst_of_szOk h
  have h2 : (sizeM t).2 = (nodeCount t : Int) := by
    cases t with
    | nil => simp [sizeM, nodeCount]
    | node a b c d e f =>
      simp only [sizeM, sizeOfChildren_eq]
      rw [csize_of_szOk (szOk_node_iff.mp h).1.1,
        csize_of_szOk (szOk_node_iff.mp h).1.2,
        (szOk_node_iff.mp h).2]
      push_cast [nodeCount]
      ring
  calc sizeM t = ((sizeM t).1, (sizeM t).2) := rfl
    _ = (t, (nodeCount t : Int)) := by rw [h1, h2]

/-- A successful `lookup`, on a tree with consistent size caches, leaves the
tree exactly as it was (all its in-place size writes are no-ops). -/
theorem lookupM_frame : ∀ {t : AVLNode} {index : Int} {p : AVLNode × AVLNode},
    szOk t → lookupM t index = .ok p → p.1 = t := by
  intro t
  induction t with
  | nil => intro index p _ h; simp [lookupM] at h
  | node k i l r hh ss ihl ihr =>
    intro index p hsz h
    have hszn := szOk_node_iff.mp hsz
    have hfix := sizeM_eq_of_szOk hszn.1.1
    simp only [lookupM, hfix] at h
    by_cases he : index = (nodeCount l : Int)
    · rw [if_pos he] at h
      cases h
      rfl
    · rw [if_neg he] at h
      by_cases hlt : index < (nodeCount l : Int)
      · rw [if_pos hlt] at h
        cases hq : lookupM l index with
        | error e => rw [hq] at h; simp [Bind.bind, Except.bind] at h
        | ok q =>
          rw [hq] at h
          simp only [Bind.bind, Except.bind] at h
          cases h
          simp [ihl hszn.1.1 hq]
      · rw [if_neg hlt] at h
        cases hq : lookupM r (index - (nodeCount l : Int) - 1) with
        | error e => rw [hq] at h; simp [Bind.bind, Except.bind] at h
        | ok q =>
          rw [hq] at h
          simp only [Bind.bind, Except.bind] at h
          cases h
          simp [ihr hszn.1.2 hq]

/-- A successful `range_aux`, on a tree with consistent size caches, leaves
the tree exactly as it was. -/
theorem range_auxM_frame : ∀ (n : Nat) {root : AVLNode} {i j : Int}
    {res : List Int} {p : AVLNode × List Int},
    (j - i + 1).toNat ≤ n → szOk root → range_auxM root i j res = .ok p →
      p.1 = root := by
  intro n
  induction n with
  | zero =>
    intro root i j res p hn hsz h
    rw [range_auxM] at h
    by_cases hnil : root = nil
    · rw [if_pos hnil] at h; cases h; rfl
    · rw [if_neg hnil] at h
      have hij : i > j := by omega
      rw [dif_pos hij] at h
      cases h
      rfl
  | succ n ihn =>
    intro root i j res p hn hsz h
    rw [range_auxM] at h
    by_cases hnil : root = nil
    · rw [if_pos hnil] at h; cases h; rfl
    · rw [if_neg hnil] at h
      by_cases hij : i > j
      · rw [dif_pos hij] at h; cases h; rfl
      · rw [dif_neg hij] at h
        cases hq : lookupM root i with
        | error e => rw [hq] at h; cases h
        | ok q =>
          rw [hq] at h
          obtain ⟨root2, nd⟩ := q
          have hroot2 : root2 = root := lookupM_frame hsz hq
          cases nd with
          | nil => cases h
          | node a b c d e f =>
            subst hroot2
            exact ihn (by omega) hsz h

/-- A successful `range_between`, on a tree with consistent size caches,
leaves the tree exactly as it was. -/
theorem range_betweenM_frame {t : AVLNode} {i j : Int} {p : AVLNode × List Int}
    (hsz : szOk t) (h : range_betweenM t i j = .ok p) : p.1 = t := by
  rw [range_betweenM, sizeM_eq_of_szOk hsz] at h
  by_cases hc : (0 ≤ i ∧ i ≤ (nodeCount t : Int) + 1) ∧
      (0 ≤ j ∧ j ≤ (nodeCount t : Int) + 1) ∧ j ≥ i
  · rw [if_pos hc] at h
    exact range_auxM_frame (j - i + 1).toNat le_rfl hsz h
  · rw [if_neg hc] at h
    cases h

/-- Every successful public operation preserves the invariant. -/
theorem applyOp_inv {fuel : Nat} {t t2 : AVLTree} {op : Op}
    (hinv : Inv t) (h : applyOp fuel t op = .ok t2) : Inv t2 := by
  cases op with
  | ins k v => exact (setItem_spec hinv h).1
  | del k => exact (delItem_spec hinv h).1
  | rank index =>
    simp only [applyOp, rankLookup, Except.map] at h
    cases hq : lookupM t.root index with
    | error e => rw [hq] at h; cases h
    | ok q =>
      rw [hq] at h
      cases h
      have := lookupM_frame hinv.2.1 hq
      simp only [this]
      exact ⟨hinv.1, hinv.2.1, hinv.2.2⟩
  | range i j =>
    simp only [applyOp, rangeBetween, Except.map] at h
    cases hq : range_betweenM t.root i j with
    | error e => rw [hq] at h; cases h
    | ok q =>
      rw [hq] at h
      cases h
      have := range_betweenM_frame hinv.2.1 hq
      simp only [this]
      exact ⟨hinv.1, hinv.2.1, hinv.2.2⟩

theorem runOps_inv {fuel : Nat} : ∀ {t t2 : AVLTree} {ops : List Op},
    Inv t → runOps fuel t ops = .ok t2 → Inv t2 := by
  intro t t2 ops
  induction ops generalizing t with
  | nil => intro hinv h; cases h; exact hinv
  | cons op rest ih =>
    intro hinv h
    simp only [runOps] at h
    cases ha : applyOp fuel t op with
    | error e => rw [ha] at h; cases h
    | ok t1 =>
      rw [ha] at h
      exact ih (applyOp_inv hinv ha) h

/-- Every reachable tree state satisfies the invariant. -/
theorem reachable_inv {t : AVLTree} (h : Reachable t) : Inv t := by
  obtain ⟨fuel, ops, hrun⟩ := h
  exact runOps_inv inv_empty hrun

/-! ## Rank lookup returns the index-th in-order element -/

theorem lookupM_nth : ∀ {t : AVLNode} {index : Int}, szOk t → 0 ≤ index →
    index < (nodeCount t : Int) →
    ∃ nd, lookupM t index = .ok (t, nd) ∧ nd ≠ nil ∧
      (inorder t)[index.toNat]? = some (keyOf nd, itemOf nd) := by
  intro t
  induction t with
  | nil =>
    intro index _ h0 hlt
    simp [nodeCount] at hlt
    omega
  | node k i l r hh ss ihl ihr =>
    intro index hsz h0 hlt
    have hszn := szOk_node_iff.mp hsz
    have hfix := sizeM_eq_of_szOk hszn.1.1
    have hlenl : (inorder l).length = nodeCount l := inorder_length l
    by_cases he : index = (nodeCount l : Int)
    · refine ⟨node k i l r hh ss, ?_, by simp, ?_⟩
      · rw [lookupM, hfix]
        simp only [if_pos he]
      · have : index.toNat = (inorder l).length := by omega
        rw [inorder, this, List.getElem?_append_right le_rfl]
        simp [keyOf, itemOf]
    · by_cases hblt : index < (nodeCount l : Int)
      · obtain ⟨nd, hnd, hne, hget⟩ := ihl hszn.1.1 h0 hblt
        refine ⟨nd, ?_, hne, ?_⟩
        · rw [lookupM, hfix]
          simp only [if_neg he, if_pos hblt, hnd, Bind.bind, Except.bind]
        · have : index.toNat < (inorder l).length := by omega
          rw [inorder, List.getElem?_append, if_pos this]
          exact hget
      · have hgt : (nodeCount l : Int) < index := by omega
        have h02 : 0 ≤ index - (nodeCount l : Int) - 1 := by omega
        have hlt2 : index - (nodeCount l : Int) - 1 < (nodeCount r : Int) := by
          simp only [nodeCount] at hlt
          push_cast at hlt
          omega
        obtain ⟨nd, hnd, hne, hget⟩ := ihr hszn.1.2 h02 hlt2
        refine ⟨nd, ?_, hne, ?_⟩
        · rw [lookupM, hfix]
          simp only [if_neg he, if_neg hblt, hnd, Bind.bind, Except.bind]
        · have hge : (inorder l).length ≤ index.toNat := by omega
          rw [inorder, List.getElem?_append_right hge]
          have hpos : 1 ≤ index.toNat - (inorder l).length := by omega
          rw [List.getElem?_cons]
          rw [if_neg (by omega)]
          have : index.toNat - (inorder l).length - 1
              = (index - (nodeCount l : Int) - 1).toNat := by omega
          rw [this]
          exact hget

/-- A valid-range `range_aux` succeeds and leaves the tree unchanged. -/
theorem range_auxM_ok : ∀ (n : Nat) {root : AVLNode} {i j : Int}
    {res : List Int}, (j - i + 1).toNat ≤ n → szOk root → 0 ≤ i →
    j < (nodeCount root : Int) →
    ∃ vs, range_auxM root i j res = .ok (root, vs) := by
  intro n
  induction n with
  | zero =>
    intro root i j res hn hsz h0 hj
    rw [range_auxM]
    by_cases hnil : root = nil
    · exact ⟨res, by rw [if_pos hnil]⟩
    · have hij : i > j := by omega
      rw [if_neg hnil, dif_pos hij]
      exact ⟨res, rfl⟩
  | succ n ihn =>
    intro root i j res hn hsz h0 hj
    rw [range_auxM]
    by_cases hnil : root = nil
    · exact ⟨res, by rw [if_pos hnil]⟩
    · rw [if_neg hnil]
      by_cases hij : i > j
      · rw [dif_pos hij]
        exact ⟨res, rfl⟩
      · rw [dif_neg hij]
        have hcnt : 0 < (nodeCount root : Int) := by
          cases root with
          | nil => exact absurd rfl hnil
          | node a b c d e f => simp [nodeCount]; positivity
        obtain ⟨nd, hnd, hne, _⟩ := lookupM_nth hsz h0 (by omega)
        rw [hnd]
        cases nd with
        | nil => exact absurd rfl hne
        | node a b c d e f => exact ihn (by omega) hsz (by omega) hj

/-! ## The iterator equals the recursive in-order traversal -/

/-- Weight of an iterator state, bounding the remaining work. -/
def drainWeight (stack : List AVLNode) (t : AVLNode) : Nat :=
  2 * nodeCount t + (stack.map fun n => 2 * nodeCount (rightOf n) + 1).sum

theorem drain_eq : ∀ (n : Nat) (stack : List AVLNode) (t : AVLNode),
    drainWeight stack t ≤ n → (∀ nd ∈ stack, nd ≠ nil) →
    drain stack t = inorderKeys t ++
      (stack.map fun nd => keyOf nd :: inorderKeys (rightOf nd)).flatten := by
  intro n
  induction n with
  | zero =>
    intro stack t hn hstack
    match stack, t with
    | [], nil => rw [drain.eq_def]; simp [inorderKeys, inorder]
    | top :: rest, nil => simp [drainWeight] at hn
    | stack, node k i l r hh ss => simp [drainWeight, nodeCount] at hn
  | succ n ihn =>
    intro stack t hn hstack
    match stack, t with
    | [], nil => rw [drain.eq_def]; simp [inorderKeys, inorder]
    | top :: rest, nil =>
      rw [drain.eq_def]
      cases top with
      | nil => exact absurd rfl (hstack nil (List.mem_cons_self _ _))
      | node k i l r hh ss =>
        dsimp only
        rw [ihn rest r (by simp [drainWeight, rightOf] at hn ⊢; omega)
          (fun nd hnd => hstack nd (List.mem_cons_of_mem _ hnd))]
        simp [inorderKeys, inorder, keyOf, rightOf]
    | [], node k i l r hh ss =>
      rw [drain.eq_def]
      dsimp only
      rw [ihn (node k i l r hh ss :: []) l
        (by simp [drainWeight, rightOf, nodeCount] at hn ⊢; omega)
        (by intro nd hnd
            rcases List.mem_cons.mp hnd with h | h
            · simp [h]
            · simp at h)]
      simp [inorderKeys, inorder, keyOf, rightOf]
    | top :: rest, node k i l r hh ss =>
      rw [drain.eq_def]
      dsimp only
      rw [ihn (node k i l r hh ss :: top :: rest) l
        (by simp [drainWeight, rightOf, nodeCount] at hn ⊢; omega)
        (by intro nd hnd
            rcases List.mem_cons.mp hnd with h | h
            · simp [h]
            · exact hstack nd h)]
      simp [inorderKeys, inorder, keyOf, rightOf]

/-- The iterator, run to exhaustion, yields exactly the recursive in-order
key sequence. -/
theorem iterKeys_eq (t : AVLTree) : iterKeys t = inorderKeys t.root := by
  rw [iterKeys, drain_eq (drainWeight [] t.root) [] t.root le_rfl (by simp)]
  simp

/-! ## Operation counting -/

/-- The net effect of one successful operation on the stored length. -/
def opDelta : Op → Int
  | .ins _ _ => 1
  | .del _ => -1
  | .rank _ => 0
  | .range _ _ => 0

theorem applyOp_length {fuel : Nat} {t t2 : AVLTree} {op : Op}
    (h : applyOp fuel t op = .ok t2) : t2.length = t.length + opDelta op := by
  cases op with
  | ins k v =>
    simp only [applyOp, setItem, Except.map] at h
    cases hr : insert_aux fuel t.root k v with
    | error e => rw [hr] at h; cases h
    | ok rt => rw [hr] at h; cases h; simp [opDelta]
  | del k =>
    simp only [applyOp, delItem, Except.map] at h
    cases hr : delete_aux fuel t.root k with
    | error e => rw [hr] at h; cases h
    | ok rt => rw [hr] at h; cases h; simp only [opDelta]; omega
  | rank index =>
    simp only [applyOp, rankLookup, Except.map] at h
    cases hq : lookupM t.root index with
    | error e => rw [hq] at h; cases h
    | ok q => rw [hq] at h; cases h; simp [opDelta]
  | range i j =>
    simp only [applyOp, rangeBetween, Except.map] at h
    cases hq : range_betweenM t.root i j with
    | error e => rw [hq] at h; cases h
    | ok q => rw [hq] at h; cases h; simp [opDelta]

theorem runOps_length {fuel : Nat} : ∀ {t t2 : AVLTree} {ops : List Op},
    runOps fuel t ops = .ok t2 → t2.length = t.length + (ops.map opDelta).sum := by
  intro t t2 ops
  induction ops generalizing t with
  | nil => intro h; cases h; simp
  | cons op rest ih =>
    intro h
    simp only [runOps] at h
    cases ha : applyOp fuel t op with
    | error e => rw [ha] at h; cases h
    | ok t1 =>
      rw [ha] at h
      rw [ih h, applyOp_length ha]
      simp only [List.map_cons, List.sum_cons]
      ring

theorem nodeCount_eq_zero_iff (t : AVLNode) : nodeCount t = 0 ↔ t = nil := by
  cases t <;> simp [nodeCount]

/-- Pairs with a different key survive `delLst` unchanged. -/
theorem mem_delLst_of_ne {p : Int × Int} {k : Int} {L : List (Int × Int)}
    (hne : p.1 ≠ k) : p ∈ delLst k L ↔ p ∈ L := by
  induction L with
  | nil => simp [delLst]
  | cons q rest ih =>
    obtain ⟨a, b⟩ := q
    by_cases hak : a = k
    · subst hak
      simp only [delLst, if_pos rfl, List.mem_cons]
      constructor
      · exact Or.inr
      · rintro (h | h)
        · subst h; simp at hne
        · exact h
    · simp only [delLst, if_neg hak, List.mem_cons, ih]

theorem map_const_sum (c : Int) : ∀ (l : List Int), (l.map fun _ => c).sum = l.length * c := by
  intro l
  induction l with
  | nil => simp
  | cons x rest ih => simp [ih]; ring

/-! ## Concrete runs used by the claim theorems -/

/-- Insert 2, 1, 3 (with values 20, 10, 30). -/
def T0ops : List Op := [.ins 2 20, .ins 1 10, .ins 3 30]

/-- The tree those three inserts produce. -/
def T0 : AVLTree :=
  ⟨node 2 20 (node 1 10 nil nil 1 1) (node 3 30 nil nil 1 1) 2 3, 3⟩

theorem T0_reachable : Reachable T0 := ⟨16, T0ops, rfl⟩

/-- `T0` after deleting key 2 (successor 3 copied into the root). -/
def T0del2 : AVLTree := ⟨node 3 30 (node 1 10 nil nil 1 1) nil 2 2, 2⟩

/-- The inserts 10, 8, 2, 11, 16, 15, 5, 12, 4, 9, 0 — a run on which the
stale-height slip of `right_rotate` leaves the tree truly unbalanced. -/
def C1ops : List Op :=
  [10, 8, 2, 11, 16, 15, 5, 12, 4, 9, 0].map fun k => Op.ins k 0

/-- The tree those eleven inserts produce: the root's subtrees have true
heights 4 and 2. -/
def C1tree : AVLTree :=
  ⟨node 11 0
    (node 8 0
      (node 4 0 (node 2 0 (node 0 0 nil nil 1 1) nil 2 2) (node 5 0 nil nil 1 1) 3 4)
      (node 10 0 (node 9 0 nil nil 1 1) nil 2 2) 4 7)
    (node 15 0 (node 12 0 nil nil 1 1) (node 16 0 nil nil 1 1) 4 3) 5 11, 11⟩

/-- The tree produced by inserting 30, 20, 10: its root carries cached
height 4, computed from the pre-rotation height of the demoted node. -/
def C2tree : AVLTree :=
  ⟨node 20 0 (node 10 0 nil nil 1 1) (node 30 0 nil nil 1 1) 4 3, 3⟩

/-! ## The claims -/

/-- C1.  REFUTED (code bug): not every reachable state satisfies the AVL
balance condition on true heights.  After inserting
10, 8, 2, 11, 16, 15, 5, 12, 4, 9, 0 into an empty tree, the root's left
subtree has true height 4 and its right subtree true height 2; the corrupted
height caches produced by `right_rotate` (which recomputes the promoted
child's height from the demoted node's stale height, `src/avl.py` lines
244-245) hide the imbalance from `rebalance`. -/
theorem C1_balance_violated_on_reachable_state :
    ∃ t, Reachable t ∧ avlBalanced t.root = false :=
  ⟨C1tree, ⟨32, C1ops, rfl⟩, rfl⟩

/-- C2.  REFUTED (code bug): cached heights do not always equal
`1 + max(children's cached heights)` after a public operation.  Inserting
30, 20, 10 triggers one right rotation; `right_rotate` computes the promoted
child's height before recomputing the demoted node's height (the mirror
image of `left_rotate`'s correct order), so the new root caches height 4
where 2 is correct. -/
theorem C2_height_cache_violated_on_reachable_state :
    ∃ t, Reachable t ∧ heightOk t.root = false :=
  ⟨C2tree, ⟨32, [.ins 30 0, .ins 20 0, .ins 10 0], rfl⟩, rfl⟩

/-- C3.  For every reachable tree and every index in `[0, count)`, the rank
lookup succeeds, returns an actual node, and that node's key is the
`index`-th element of the iterator's ascending in-order key sequence. -/
theorem C3_rank_lookup_matches_inorder (T : AVLTree) (index : Int)
    (hr : Reachable T) (h0 : 0 ≤ index) (hlt : index < tree_len T) :
    ∃ nd, rankLookup T index = .ok (T, nd) ∧ nd ≠ nil ∧
      (iterKeys T)[index.toNat]? = some (keyOf nd) := by
  obtain ⟨hord, hsz, hlen⟩ := reachable_inv hr
  have hlt2 : index < (nodeCount T.root : Int) := by
    rw [tree_len, hlen] at hlt; exact hlt
  obtain ⟨nd, hnd, hne, hget⟩ := lookupM_nth hsz h0 hlt2
  refine ⟨nd, ?_, hne, ?_⟩
  · simp only [rankLookup, hnd, Except.map]
  · rw [iterKeys_eq]
    simp only [inorderKeys]
    rw [List.getElem?_map, hget]
    rfl

/-- C3 witness: on the tree built by inserting 2, 1, 3, rank 1 holds key 2. -/
theorem C3_witness :
    ∃ nd, rankLookup T0 1 = .ok (T0, nd) ∧ nd ≠ nil ∧
      (iterKeys T0)[(1 : Int).toNat]? = some (keyOf nd) :=
  C3_rank_lookup_matches_inorder T0 1 T0_reachable (by decide) (by decide)

/-- C4.  REFUTED (code bug): `range_between` checks its indices against
`N + 1` instead of `N - 1` (the spec itself flags this off-by-one in §9), so
on an empty tree `range_between(0, 0)` passes the precondition check and
returns the empty list instead of failing with the range `ValueError`. -/
theorem C4_empty_range_returns_ok :
    rangeBetween emptyTree 0 0 = .ok (emptyTree, []) := by
  have h1 : range_auxM nil 0 0 [] = .ok (nil, []) := by rw [range_auxM]; simp
  norm_num [rangeBetween, range_betweenM, sizeM, emptyTree, h1, Except.map]

/-- C5.  For every reachable tree, the iterator's key sequence is strictly
ascending and its length equals the stored count. -/
theorem C5_iterator_sorted_and_counted (T : AVLTree) (hr : Reachable T) :
    (iterKeys T).Pairwise (· < ·) ∧ ((iterKeys T).length : Int) = tree_len T := by
  obtain ⟨hord, hsz, hlen⟩ := reachable_inv hr
  rw [iterKeys_eq]
  refine ⟨(ordered_iff _).mp hord, ?_⟩
  simp only [inorderKeys, List.length_map, inorder_length, tree_len]
  exact hlen.symm

/-- C5 witness: on the tree built by inserting 2, 1, 3. -/
theorem C5_witness :
    (iterKeys T0).Pairwise (· < ·) ∧ ((iterKeys T0).length : Int) = tree_len T0 :=
  C5_iterator_sorted_and_counted T0 T0_reachable

/-- C6.  Inserting a key already present in a reachable tree fails with the
duplicate-key error, and the observable tree state after the failed call is
exactly the state before it. -/
theorem C6_duplicate_insert_rejected (T : AVLTree) (fuel : Nat) (k v : Int)
    (hr : Reachable T) (hmem : k ∈ iterKeys T) :
    setItemS fuel T k v = (T, some .dupKey) := by
  obtain ⟨hord, _, _⟩ := reachable_inv hr
  rw [iterKeys_eq] at hmem
  simp [setItemS, setItem, insert_aux_dup fuel k v hord hmem, Except.map]

/-- C6 witness: re-inserting key 2 into the tree built from 2, 1, 3. -/
theorem C6_witness : setItemS 16 T0 2 99 = (T0, some .dupKey) :=
  C6_duplicate_insert_rejected T0 16 2 99 T0_reachable (by rw [iterKeys_eq]; decide)

/-- C7.  On a reachable tree, a successful delete removes exactly the given
key: it is afterwards absent, the count drops by one, and every pair with a
different key is kept verbatim; deleting an absent key fails with the
missing-key error and leaves the observable state untouched. -/
theorem C7_delete_exact (T : AVLTree) (fuel : Nat) (k : Int) (hr : Reachable T) :
    (∀ T2, delItem fuel T k = .ok T2 →
      k ∉ iterKeys T2 ∧ T2.length = T.length - 1 ∧
      ∀ p : Int × Int, p.1 ≠ k → (p ∈ inorder T2.root ↔ p ∈ inorder T.root)) ∧
    (k ∉ iterKeys T → delItemS fuel T k = (T, some .keyNotFound)) := by
  have hinv := reachable_inv hr
  constructor
  · intro T2 h
    obtain ⟨hinv2, hio, hmem, hlen⟩ := delItem_spec hinv h
    refine ⟨?_, hlen, fun p hp => by rw [hio]; exact mem_delLst_of_ne hp⟩
    rw [iterKeys_eq]
    have hnd : ((inorder T.root).map Prod.fst).Nodup := by
      have := (ordered_iff T.root).mp hinv.1
      simp only [inorderKeys] at this
      exact this.imp ne_of_lt
    simp only [inorderKeys, hio]
    intro hk
    exact ((mem_keys_delLst hnd).mp hk).2 rfl
  · intro hnmem
    rw [iterKeys_eq] at hnmem
    simp [delItemS, delItem, delete_aux_notfound fuel k hinv.1 hnmem, Except.map]

/-- C7 witness: deleting key 2 from the tree built from 2, 1, 3 leaves keys
1 and 3 with their values and count 2; deleting 7 fails and changes nothing. -/
theorem C7_witness :
    (2 ∉ iterKeys T0del2 ∧ T0del2.length = T0.length - 1 ∧
      ((1, 10) ∈ inorder T0del2.root ↔ (1, 10) ∈ inorder T0.root)) ∧
    delItemS 16 T0 7 = (T0, some .keyNotFound) := by
  have h := C7_delete_exact T0 16 2 T0_reachable
  have h7 := C7_delete_exact T0 16 7 T0_reachable
  have hdel := h.1 T0del2 rfl
  exact ⟨⟨hdel.1, hdel.2.1, hdel.2.2 (1, 10) (by decide)⟩,
    h7.2 (by rw [iterKeys_eq]; decide)⟩

/-- C8.  Inserting any list of distinct keys into the empty tree and then
deleting all of them, in any order, yields (whenever the run succeeds) the
empty tree: absent root and count 0. -/
theorem C8_insert_then_delete_all_empties (ks : List (Int × Int)) (ds : List Int)
    (fuel : Nat) (T : AVLTree) (hnd : (ks.map Prod.fst).Nodup)
    (hperm : ds.Perm (ks.map Prod.fst))
    (hrun : runOps fuel emptyTree
      (ks.map (fun p => Op.ins p.1 p.2) ++ ds.map Op.del) = .ok T) :
    T.root = nil ∧ T.length = 0 := by
  have hlen := runOps_length hrun
  have hsum : (((ks.map fun p => Op.ins p.1 p.2) ++ ds.map Op.del).map opDelta).sum
      = (ks.length : Int) - ds.length := by
    rw [List.map_append, List.sum_append, List.map_map, List.map_map]
    have h1 : (ks.map (opDelta ∘ fun p => Op.ins p.1 p.2)).sum = (ks.length : Int) := by
      have : (opDelta ∘ fun p : Int × Int => Op.ins p.1 p.2) = fun _ => (1 : Int) := rfl
      rw [this]
      have := map_const_sum 1 (ks.map Prod.fst)
      simp only [List.map_map] at this
      simpa using this
    have h2 : (ds.map (opDelta ∘ Op.del)).sum = -(ds.length : Int) := by
      have : (opDelta ∘ Op.del) = fun _ => (-1 : Int) := rfl
      rw [this, map_const_sum]
      ring
    rw [h1, h2]
    ring
  have hlen0 : T.length = 0 := by
    rw [hlen, hsum]
    have := hperm.length_eq
    simp only [List.length_map] at this
    simp [emptyTree, this]
  have hinv := runOps_inv inv_empty hrun
  have : nodeCount T.root = 0 := by
    have h2 := hinv.2.2
    rw [hlen0] at h2
    omega
  exact ⟨(nodeCount_eq_zero_iff T.root).mp this, hlen0⟩

/-- C8 witness: three inserts then three deletes in a different order. -/
theorem C8_witness : (⟨nil, 0⟩ : AVLTree).root = nil ∧ (⟨nil, 0⟩ : AVLTree).length = 0 :=
  C8_insert_then_delete_all_empties [(1, 10), (2, 20), (3, 30)] [2, 1, 3] 16
    ⟨nil, 0⟩ (by decide) (by decide) rfl

/-- C9.  On a reachable tree, rank lookup at any valid index and range
extraction over any valid pair `i ≤ j` succeed and return the tree in
exactly the state it was in: every size write they perform is a no-op. -/
theorem C9_queries_leave_tree_unchanged (T : AVLTree) (index i j : Int)
    (hr : Reachable T) (h0 : 0 ≤ index) (h1 : index < tree_len T)
    (hi : 0 ≤ i) (hij : i ≤ j) (hj : j < tree_len T) :
    (∃ nd, rankLookup T index = .ok (T, nd)) ∧
    (∃ vs, rangeBetween T i j = .ok (T, vs)) := by
  obtain ⟨hord, hsz, hlen⟩ := reachable_inv hr
  rw [tree_len, hlen] at h1 hj
  constructor
  · obtain ⟨nd, hnd, _, _⟩ := lookupM_nth hsz h0 h1
    exact ⟨nd, by simp only [rankLookup, hnd, Except.map]⟩
  · obtain ⟨vs, hvs⟩ := range_auxM_ok (j - i + 1).toNat le_rfl hsz hi hj
    refine ⟨vs, ?_⟩
    rw [rangeBetween, range_betweenM, sizeM_eq_of_szOk hsz,
      if_pos ⟨⟨hi, by omega⟩, ⟨by omega, by omega⟩, by omega⟩, hvs]
    rfl

/-- C9 witness: on the tree built from 2, 1, 3, rank 0 and range (0, 1). -/
theorem C9_witness :
    (∃ nd, rankLookup T0 0 = .ok (T0, nd)) ∧
    (∃ vs, rangeBetween T0 0 1 = .ok (T0, vs)) :=
  C9_queries_leave_tree_unchanged T0 0 0 1 T0_reachable (by decide) (by decide)
    (by decide) (by decide) (by decide)

/-- C10.  For every reachable tree, the root is absent exactly when the
stored count is zero: `is_empty` answers true iff `len` answers 0. -/
theorem C10_empty_iff_count_zero (T : AVLTree) (hr : Reachable T) :
    tree_is_empty T = true ↔ tree_len T = 0 := by
  obtain ⟨_, _, hlen⟩ := reachable_inv hr
  simp only [tree_is_empty, decide_eq_true_eq, tree_len, hlen,
    Int.natCast_eq_zero, nodeCount_eq_zero_iff]

/-- C10 witness: on the (non-empty) tree built from 2, 1, 3, both sides are
false; discharged through the theorem at `T0`. -/
theorem C10_witness : tree_is_empty T0 = true ↔ tree_len T0 = 0 :=
  C10_empty_iff_count_zero T0 T0_reachable

end MinecraftAVL
